import Mathlib

/-!
Shallow embedding of `scripts/fetch_glotec_daily.py`.

The script has three core algorithms, embedded here directly from the source:

* `parse_listing`  : parsing a remote JSON listing into timestamped file
  records (`FNAME_RE` matching, URL resolution, stable sort by timestamp);
* `choose_3hourly` : selecting, per 3-hour UTC target, the record nearest in
  time, then deduplicating by name;
* `prune_old_day_folders` : removing date-named day directories older than a
  retention cutoff.

Conventions of the embedding:

* UTC instants are integers (seconds); `datetime` subtraction and
  `total_seconds()` are exact on whole-second datetimes, so integer
  arithmetic is faithful.
* Calendar dates are embedded by their proleptic-Gregorian ordinal
  (`date.toordinal` in Python: day 1 is 0001-01-01); `datetime.date`
  comparison coincides with ordinal comparison.
* The system clock (`datetime.now`) is an injected parameter (`todayOrd`).
* Python exceptions are `Except String`; JSON values that the script only
  tests for truthiness are embedded by a type recording the string payload
  or, for non-strings, just the truthiness bit.
* The filesystem is a root-exists flag plus a list of immediate children
  (name and is-directory bit); `shutil.rmtree(p, ignore_errors=True)` is
  removal of the named child.
-/

namespace Glotec

/-- A JSON value as the script observes it: either a string, or a
non-string value of which only the truthiness is ever used. -/
inductive JVal where
  | str (s : String)
  | other (truthy : Bool)
deriving DecidableEq, Repr

/-- Python truthiness of an embedded JSON value: a string is truthy iff
nonempty. -/
def JVal.truthy : JVal → Bool
  | .str s => !(s == "")
  | .other b => b

/-- One parsed file record, the dict `{"name": ..., "url": ..., "ts": ...}`
built by `parse_listing`. -/
structure FileRecord where
  name : String
  url : JVal
  ts : Int
deriving DecidableEq, Repr

/-! ## Target selector (`choose_3hourly`, source lines 77-95) -/

/-- Selection key used by `choose_3hourly`:
`abs((x["ts"] - t).total_seconds())`. -/
def dAbs (r : FileRecord) (target : Int) : Int := |r.ts - target|

/-- Python `min(items, key=...)` on a nonempty list, accumulator form: the
current best is replaced only when a strictly smaller key appears, so the
first element attaining the minimum wins. -/
def pyMinFrom (target : Int) (best : FileRecord) : List FileRecord → FileRecord
  | [] => best
  | x :: xs => pyMinFrom target (if dAbs x target < dAbs best target then x else best) xs

/-- The eight targets `day_utc + timedelta(hours=h) for h in range(0, 24, 3)`,
in seconds. -/
def targets3h (day : Int) : List Int :=
  (List.range 8).map (fun k => day + 3600 * (3 * k))

/-- The dedup-by-name loop of `choose_3hourly`: keep the first record seen
for each name (`seen` is the set accumulated so far). -/
def dedupByName : List FileRecord → List String → List FileRecord
  | [], _ => []
  | x :: xs, seen =>
    if x.name ∈ seen then dedupByName xs seen
    else x :: dedupByName xs (x.name :: seen)

/-- Lines 77-95: pick the nearest record for each of the eight 3-hourly
targets, then deduplicate by name preserving order. On an empty input,
Python's `min` raises `ValueError`; the embedding returns `none` there. -/
def choose_3hourly : List FileRecord → Int → Option (List FileRecord)
  | [], _ => none
  | h :: tl, day =>
    some (dedupByName ((targets3h day).map (fun t => pyMinFrom t h tl)) [])

/-- Concrete records used by the witness theorems. -/
def rec0 : FileRecord := ⟨"a", .str "u", 0⟩

/-- Concrete records used by the witness theorems. -/
def rec1 : FileRecord := ⟨"b", .str "u", 3600⟩

/-! ## Listing parser (`parse_listing`, source lines 25 and 38-74) -/

/-- One element of the listing payload: a plain string, a JSON object
(assoc list of fields), or any other JSON value (skipped by the
`else: continue` branch). -/
inductive LItem where
  | str (s : String)
  | dict (fields : List (String × JVal))
  | other
deriving DecidableEq, Repr

/-- The decoded top-level listing payload: a JSON array or anything else
(which makes `parse_listing` raise `ValueError`). -/
inductive Payload where
  | list (items : List LItem)
  | notList
deriving DecidableEq, Repr

/-- Python `it.get(k)`: the value at key `k`, or `None`. -/
def dictGet (fields : List (String × JVal)) (k : String) : Option JVal :=
  (fields.find? (fun p => p.1 == k)).map (fun p => p.2)

/-- Python `a or b` on optional JSON values: the first operand when truthy,
otherwise the second. -/
def pyOr (a b : Option JVal) : Option JVal :=
  match a with
  | some v => if v.truthy then some v else b
  | none => b

/-- Truthiness of an optional value (`None` is falsy). -/
def truthyOpt : Option JVal → Bool
  | none => false
  | some v => v.truthy

/-- Line 23 of the script. -/
def BASE_DIR_URL : String :=
  "https://services.swpc.noaa.gov/products/glotec/geojson_2d_urt/"

/-- Python's `$` anchor also matches just before one trailing newline, so
the regex search sees the string with at most one final newline removed. -/
def stripTrailingNewline (cs : List Char) : List Char :=
  if cs.getLast? == some '\n' then cs.dropLast else cs

/-- Fixed 12-character literal head of `FNAME_RE`. -/
def fnamePat : List Char := "glotec_icao_".data

/-- Fixed 9-character literal tail of `FNAME_RE`. -/
def fnameTail : List Char := "Z.geojson".data

/-- Search for `glotec_icao_(\d{8})T(\d{6})Z\.geojson$` (line 25): because
the pattern is end-anchored, a match exists exactly when the final 36
characters decompose as the pattern; the two digit groups are returned. -/
def fnameSearchCore (cs : List Char) : Option (List Char × List Char) :=
  if 36 ≤ cs.length then
    let t := cs.drop (cs.length - 36)
    let d8 := (t.drop 12).take 8
    let d6 := (t.drop 21).take 6
    if t.take 12 = fnamePat ∧ d8.all Char.isDigit = true ∧ (t.drop 20).take 1 = ['T'] ∧
        d6.all Char.isDigit = true ∧ t.drop 27 = fnameTail then
      some (d8, d6)
    else none
  else none

/-- The whole-string search `FNAME_RE.search(name)`, including the
end-anchor's tolerance of one trailing newline. -/
def fnameSearch (s : String) : Option (List Char × List Char) :=
  fnameSearchCore (stripTrailingNewline s.data)

/-- Numeric value of a fixed-width decimal digit string. -/
def digitsToNat (cs : List Char) : Nat :=
  cs.foldl (fun a c => a * 10 + (c.toNat - 48)) 0

/-- Gregorian leap-year rule, as in Python's `calendar`/`datetime`. -/
def isLeap (y : Nat) : Bool :=
  y % 4 == 0 && (y % 100 != 0 || y % 400 == 0)

/-- Length of month `m` of year `y`. -/
def monthLen (y m : Nat) : Nat :=
  if m == 2 then (if isLeap y then 29 else 28)
  else if m == 4 || m == 6 || m == 9 || m == 11 then 30
  else 31

/-- Days in year `y` strictly before month `m`. -/
def daysBeforeMonth (y m : Nat) : Nat :=
  (List.range (m - 1)).foldl (fun acc i => acc + monthLen y (i + 1)) 0

/-- Python `date(y, m, d).toordinal()`: proleptic-Gregorian ordinal with
day 1 = 0001-01-01. -/
def toOrdinal (y m d : Nat) : Nat :=
  365 * (y - 1) + (y - 1) / 4 - (y - 1) / 100 + (y - 1) / 400 + daysBeforeMonth y m + d

/-- The dates `datetime.strptime(..., "%Y%m%d...")` accepts: years 1-9999,
months 1-12, day within the month. -/
def validYMD (y m d : Nat) : Bool :=
  1 ≤ y && y ≤ 9999 && 1 ≤ m && m ≤ 12 && 1 ≤ d && d ≤ monthLen y m

/-- The times `datetime.strptime` accepts for `%H%M%S` in a `datetime`. -/
def validHMS (hh mi ss : Nat) : Bool :=
  hh ≤ 23 && mi ≤ 59 && ss ≤ 59

/-- Line 70: `datetime.strptime(ymd + hms, "%Y%m%d%H%M%S")` tagged UTC, as
seconds since the start of ordinal day 0; `none` is the `ValueError` raised
on an invalid calendar date or time. There is no timezone conversion: the
token is taken as UTC verbatim. -/
def tsOfToken (d8 d6 : List Char) : Option Int :=
  let y := digitsToNat (d8.take 4)
  let mo := digitsToNat ((d8.drop 4).take 2)
  let dy := digitsToNat (d8.drop 6)
  let hh := digitsToNat (d6.take 2)
  let mi := digitsToNat ((d6.drop 2).take 2)
  let ss := digitsToNat (d6.drop 4)
  if validYMD y mo dy && validHMS hh mi ss then
    some ((toOrdinal y mo dy : Int) * 86400 + hh * 3600 + mi * 60 + ss)
  else none

/-- Lines 65-71 for one already-resolved name and URL: regex match (or
silent skip), then timestamp parse (or `ValueError`), then the record. -/
def mkRecord (nm : String) (url : JVal) : Except String (Option FileRecord) :=
  match fnameSearch nm with
  | none => .ok none
  | some (d8, d6) =>
    match tsOfToken d8 d6 with
    | some ts => .ok (some ⟨nm, url, ts⟩)
    | none => .error "ValueError: invalid datetime token"

/-- Lines 55: `it.get("name") or it.get("file") or it.get("filename") or
it.get("path")`. -/
def nameField (fields : List (String × JVal)) : Option JVal :=
  pyOr (dictGet fields "name") (pyOr (dictGet fields "file")
    (pyOr (dictGet fields "filename") (dictGet fields "path")))

/-- Line 56: `it.get("url") or it.get("href")`. -/
def urlField (fields : List (String × JVal)) : Option JVal :=
  pyOr (dictGet fields "url") (dictGet fields "href")

/-- The body of the `for it in list_json` loop (lines 47-71) for one
element: `ok none` is a silent skip (`continue`), `error` a raised
exception. A truthy non-string name raises `TypeError` (either at the URL
concatenation or at `FNAME_RE.search`). -/
def procItem : LItem → Except String (Option FileRecord)
  | .other => .ok none
  | .str s => mkRecord s (.str (BASE_DIR_URL ++ s))
  | .dict fields =>
    match nameField fields with
    | none => .ok none
    | some nv =>
      if nv.truthy then
        match nv with
        | .str s =>
          mkRecord s
            (match urlField fields with
             | some u => if u.truthy then u else .str (BASE_DIR_URL ++ s)
             | none => .str (BASE_DIR_URL ++ s))
        | .other _ => .error "TypeError: expected string or bytes-like object"
      else .ok none

/-- The loop of `parse_listing` over all elements, in order, before the
final sort; an exception from any element aborts the whole call. -/
def parseItems : List LItem → Except String (List FileRecord)
  | [] => .ok []
  | it :: rest =>
    match procItem it with
    | .error e => .error e
    | .ok r? =>
      match parseItems rest with
      | .error e => .error e
      | .ok rs =>
        match r? with
        | some r => .ok (r :: rs)
        | none => .ok rs

/-- Sort relation of line 73: `items.sort(key=lambda x: x["ts"])`. -/
def tsR (a b : FileRecord) : Prop := a.ts ≤ b.ts

instance : DecidableRel tsR := fun a b => inferInstanceAs (Decidable (a.ts ≤ b.ts))

instance : IsTotal FileRecord tsR := ⟨fun a b => le_total a.ts b.ts⟩

instance : IsTrans FileRecord tsR := ⟨fun _ _ _ hab hbc => le_trans hab hbc⟩

/-- Lines 38-74: reject non-list payloads, process the elements in order,
and stably sort the records by timestamp. Python's `list.sort` is a stable
sort; the embedding uses insertion sort, which is stable, and any two
stable sorts by the same key coincide (sortedness plus the per-key filter
equation proved below determine the output uniquely). -/
def parse_listing : Payload → Except String (List FileRecord)
  | .notList => .error "Listing JSON is not a list."
  | .list its =>
    match parseItems its with
    | .error e => .error e
    | .ok items => .ok (items.insertionSort tsR)

/-- Modelled from the claim's wording for C5 only (refinement comparison):
the name matches `glotec_icao_<8-digit-date>T<6-digit-time>Z.<ext>` with an
ARBITRARY extension, anywhere up to the end of the name. -/
def specMatchesAnyExt (s : String) : Prop :=
  ∃ pre d8 d6 ext, s.data = pre ++ fnamePat ++ d8 ++ ['T'] ++ d6 ++ 'Z' :: '.' :: ext ∧
    d8.length = 8 ∧ d8.all Char.isDigit = true ∧ d6.length = 6 ∧ d6.all Char.isDigit = true

/-- Declarative form of what `FNAME_RE.search` accepts: the name (with at
most one trailing newline removed) ends with
`glotec_icao_<d8>T<d6>Z.geojson`. -/
def specGeojsonTok (s : String) (d8 d6 : List Char) : Prop :=
  (∃ pre, stripTrailingNewline s.data = pre ++ fnamePat ++ d8 ++ ['T'] ++ d6 ++ fnameTail) ∧
    d8.length = 8 ∧ d8.all Char.isDigit = true ∧ d6.length = 6 ∧ d6.all Char.isDigit = true

/-! ## Retention pruner (`prune_old_day_folders`, source lines 26 and 111-150) -/

/-- An immediate child of the output root: its name and whether it is a
directory. -/
structure Entry where
  name : String
  isDir : Bool
deriving DecidableEq, Repr

/-- The filesystem as the pruner observes it: whether `out_dir` exists and
its immediate children. -/
structure FsState where
  rootExists : Bool
  children : List Entry
deriving DecidableEq, Repr

/-- The effect of `shutil.rmtree(p, ignore_errors=True)`: the named child
is gone. -/
def removeDirByName (st : FsState) (n : String) : FsState :=
  { st with children := st.children.filter (fun c => !(c.name == n)) }

/-- The print statements of the pruner, as observable events. -/
inductive PruneMsg where
  | skipDisabled
  | wouldRemove (name : String) (d cutoff : Int)
  | removing (name : String) (d cutoff : Int)
  | summary (scanned removed : Nat) (keepDays cutoff : Int)
deriving DecidableEq, Repr

/-- Result of a pruner run: final filesystem, the two counters, and the
emitted messages in order. -/
structure PruneOut where
  fs : FsState
  scanned : Nat
  removed : Nat
  msgs : List PruneMsg
deriving DecidableEq, Repr

/-- An 8-character all-digit name. -/
def isDigits8 (cs : List Char) : Bool :=
  cs.length == 8 && cs.all Char.isDigit

/-- Python `DAYDIR_RE.match(name)` for `^\d{8}$` (line 26): eight digits,
with the `$` anchor also matching before one trailing newline. -/
def daydirMatch (s : String) : Bool :=
  isDigits8 s.data || (s.data.getLast? == some '\n' && isDigits8 s.data.dropLast)

/-- Line 138: `datetime.strptime(name, "%Y%m%d").date()`, as an ordinal;
`none` is the `ValueError` branch (caught and skipped by the loop). -/
def parseDayName (s : String) : Option Int :=
  match s.data with
  | [c1, c2, c3, c4, c5, c6, c7, c8] =>
    if ([c1, c2, c3, c4, c5, c6, c7, c8]).all Char.isDigit then
      let y := digitsToNat [c1, c2, c3, c4]
      let mo := digitsToNat [c5, c6]
      let dy := digitsToNat [c7, c8]
      if validYMD y mo dy then some (toOrdinal y mo dy : Int) else none
    else none
  | _ => none

/-- Lexicographic order on child names, for line 129's `sorted(...)`. -/
def nameR (a b : Entry) : Prop := a.name ≤ b.name

instance : DecidableRel nameR := fun a b => inferInstanceAs (Decidable (a.name ≤ b.name))

/-- Scan order of line 129: `sorted(os.listdir(out_dir))`. -/
def childSort (l : List Entry) : List Entry :=
  l.insertionSort nameR

/-- The entries the loop counts as `scanned`: directories whose name
matches `DAYDIR_RE`. -/
def consideredDir (e : Entry) : Bool :=
  e.isDir && daydirMatch e.name

/-- The removal decision of lines 131-142 for one entry: a scanned
directory whose parsed date is strictly before the cutoff. -/
def removeDecision (cutoff : Int) (e : Entry) : Bool :=
  e.isDir && daydirMatch e.name &&
    (match parseDayName e.name with
     | some d => decide (d < cutoff)
     | none => false)

/-- The `for name in sorted(os.listdir(out_dir))` loop (lines 129-148),
threading the filesystem through the removals. -/
def pruneLoop (cutoff : Int) (dryRun : Bool) : FsState → List Entry → PruneOut
  | st, [] => ⟨st, 0, 0, []⟩
  | st, e :: rest =>
    if e.isDir && daydirMatch e.name then
      match parseDayName e.name with
      | none =>
        let r := pruneLoop cutoff dryRun st rest
        ⟨r.fs, r.scanned + 1, r.removed, r.msgs⟩
      | some d =>
        if d < cutoff then
          if dryRun then
            let r := pruneLoop cutoff dryRun st rest
            ⟨r.fs, r.scanned + 1, r.removed + 1, .wouldRemove e.name d cutoff :: r.msgs⟩
          else
            let r := pruneLoop cutoff dryRun (removeDirByName st e.name) rest
            ⟨r.fs, r.scanned + 1, r.removed + 1, .removing e.name d cutoff :: r.msgs⟩
        else
          let r := pruneLoop cutoff dryRun st rest
          ⟨r.fs, r.scanned + 1, r.removed, r.msgs⟩
    else
      let r := pruneLoop cutoff dryRun st rest
      ⟨r.fs, r.scanned, r.removed, r.msgs⟩

/-- Lines 111-150. `todayOrd` is the injected `datetime.now(timezone.utc)
.date().toordinal()`. With `keep_days <= 0` only the skip notice is
printed; with a missing root nothing is printed; otherwise the loop runs
over the sorted children and the final summary line is printed. -/
def prune_old_day_folders (st : FsState) (keepDays todayOrd : Int)
    (dryRun : Bool) : PruneOut :=
  if keepDays ≤ 0 then ⟨st, 0, 0, [.skipDisabled]⟩
  else
    let cutoff := todayOrd - (keepDays - 1)
    if !st.rootExists then ⟨st, 0, 0, []⟩
    else
      let r := pruneLoop cutoff dryRun st (childSort st.children)
      ⟨r.fs, r.scanned, r.removed,
        r.msgs ++ [.summary r.scanned r.removed keepDays cutoff]⟩

instance exceptDecEq {ε α : Type} [DecidableEq ε] [DecidableEq α] :
    DecidableEq (Except ε α) := fun x y =>
  match x, y with
  | .ok a, .ok b =>
    if h : a = b then .isTrue (h ▸ rfl) else .isFalse (fun hc => h (Except.ok.inj hc))
  | .error e, .error f =>
    if h : e = f then .isTrue (h ▸ rfl) else .isFalse (fun hc => h (Except.error.inj hc))
  | .ok _, .error _ => .isFalse (fun hc => Except.noConfusion hc)
  | .error _, .ok _ => .isFalse (fun hc => Except.noConfusion hc)

/-- Concrete listing name used by witness theorems (timestamp 0001-01-01
00:00:00 UTC, ordinal-day encoding 86400). -/
def nmA : String := "glotec_icao_00010101T000000Z.geojson"

/-- Concrete listing name used by witness theorems (timestamp 0001-01-01
03:00:00 UTC, ordinal-day encoding 97200). -/
def nmB : String := "glotec_icao_00010101T030000Z.geojson"

/-- The record `parse_listing` builds for `nmA` given as a plain string. -/
def recNmA : FileRecord := ⟨nmA, .str (BASE_DIR_URL ++ nmA), 86400⟩

/-- The record `parse_listing` builds for `nmB` given as a plain string. -/
def recNmB : FileRecord := ⟨nmB, .str (BASE_DIR_URL ++ nmB), 97200⟩

/-- A name matching the claimed any-extension pattern but not `FNAME_RE`. -/
def nmJson : String := "glotec_icao_20240101T000000Z.json"

theorem find?_cons_true {α : Type} (p : α → Bool) (a : α) (l : List α) (h : p a = true) :
    List.find? p (a :: l) = some a := by
  simp [List.find?_cons, h]

theorem find?_cons_false {α : Type} (p : α → Bool) (a : α) (l : List α) (h : p a = false) :
    List.find? p (a :: l) = List.find? p l := by
  simp [List.find?_cons, h]

theorem pyMinFrom_mem (target : Int) (tl : List FileRecord) (h : FileRecord) :
    pyMinFrom target h tl ∈ h :: tl := by
  induction tl generalizing h with
  | nil => simp [pyMinFrom]
  | cons x xs ih =>
    rw [pyMinFrom]
    by_cases hc : dAbs x target < dAbs h target
    · rw [if_pos hc]
      have hm := ih x
      simp only [List.mem_cons] at hm ⊢
      tauto
    · rw [if_neg hc]
      have hm := ih h
      simp only [List.mem_cons] at hm ⊢
      tauto

/-- C2: first-minimal-element semantics of the per-target pick of
`choose_3hourly` (Python's `min(items_for_day, key=...)` at line 85). For a
nonempty input `h :: tl` and any target, the pick has minimal absolute time
distance over the whole list, and it is the FIRST element of the list whose
distance attains that minimum; in particular, of two records at equal
distance from the target, the one appearing earlier in the input is the
pick whenever either is picked at all. -/
theorem pyMinFrom_first_min (target : Int) (tl : List FileRecord) (h : FileRecord) :
    (∀ x ∈ h :: tl, dAbs (pyMinFrom target h tl) target ≤ dAbs x target) ∧
      (h :: tl).find? (fun x => dAbs x target == dAbs (pyMinFrom target h tl) target) =
        some (pyMinFrom target h tl) := by
  induction tl generalizing h with
  | nil =>
    constructor
    · simp [pyMinFrom]
    · simp [pyMinFrom, List.find?_cons]
  | cons x xs ih =>
    by_cases hc : dAbs x target < dAbs h target
    · have hrw : pyMinFrom target h (x :: xs) = pyMinFrom target x xs := by
        rw [pyMinFrom, if_pos hc]
      obtain ⟨ihmin, ihfind⟩ := ih x
      have hrx : dAbs (pyMinFrom target x xs) target ≤ dAbs x target := ihmin x (by simp)
      have hrh : dAbs (pyMinFrom target x xs) target < dAbs h target := lt_of_le_of_lt hrx hc
      rw [hrw]
      constructor
      · intro y hy
        rcases List.mem_cons.mp hy with rfl | hy
        · exact le_of_lt hrh
        · exact ihmin y hy
      · have hpf : (dAbs h target == dAbs (pyMinFrom target x xs) target) = false := by
          simp only [beq_eq_false_iff_ne, ne_eq]
          exact ne_of_gt hrh
        exact (find?_cons_false
          (fun y => dAbs y target == dAbs (pyMinFrom target x xs) target)
          h (x :: xs) hpf).trans ihfind
    · have hrw : pyMinFrom target h (x :: xs) = pyMinFrom target h xs := by
        rw [pyMinFrom, if_neg hc]
      obtain ⟨ihmin, ihfind⟩ := ih h
      have hhx : dAbs h target ≤ dAbs x target := le_of_not_lt hc
      have hrh : dAbs (pyMinFrom target h xs) target ≤ dAbs h target := ihmin h (by simp)
      rw [hrw]
      constructor
      · intro y hy
        rcases List.mem_cons.mp hy with rfl | hy
        · exact hrh
        rcases List.mem_cons.mp hy with rfl | hy
        · exact le_trans hrh hhx
        · exact ihmin y (List.mem_cons.mpr (Or.inr hy))
      · by_cases hph : dAbs h target = dAbs (pyMinFrom target h xs) target
        · have hfh : (h :: xs).find?
              (fun y => dAbs y target == dAbs (pyMinFrom target h xs) target) = some h :=
            find?_cons_true
              (fun y => dAbs y target == dAbs (pyMinFrom target h xs) target)
              h xs (by simpa using hph)
          have hre : pyMinFrom target h xs = h :=
            Option.some_injective _ (ihfind.symm.trans hfh)
          rw [hre]
          exact find?_cons_true
            (fun y => dAbs y target == dAbs h target) h (x :: xs) (by simp)
        · have hpf : (dAbs h target == dAbs (pyMinFrom target h xs) target) = false := by
            simp only [beq_eq_false_iff_ne, ne_eq]
            exact hph
          have hpx : (dAbs x target == dAbs (pyMinFrom target h xs) target) = false := by
            simp only [beq_eq_false_iff_ne, ne_eq]
            intro e
            exact hph (le_antisymm (le_trans hhx (le_of_eq e)) hrh)
          have hxs : xs.find?
              (fun y => dAbs y target == dAbs (pyMinFrom target h xs) target) =
                some (pyMinFrom target h xs) :=
            ((find?_cons_false
              (fun y => dAbs y target == dAbs (pyMinFrom target h xs) target)
              h xs hpf).symm.trans ihfind)
          exact (find?_cons_false
              (fun y => dAbs y target == dAbs (pyMinFrom target h xs) target)
              h (x :: xs) hpf).trans
            ((find?_cons_false
              (fun y => dAbs y target == dAbs (pyMinFrom target h xs) target)
              x xs hpx).trans hxs)

theorem dedupByName_subset (l : List FileRecord) :
    ∀ seen x, x ∈ dedupByName l seen → x ∈ l := by
  induction l with
  | nil =>
    intro seen x hx
    simp [dedupByName] at hx
  | cons a l ih =>
    intro seen x hx
    rw [dedupByName] at hx
    by_cases hc : a.name ∈ seen
    · rw [if_pos hc] at hx
      exact List.mem_cons.mpr (Or.inr (ih _ _ hx))
    · rw [if_neg hc] at hx
      rcases List.mem_cons.mp hx with rfl | hx
      · simp
      · exact List.mem_cons.mpr (Or.inr (ih _ _ hx))

theorem dedupByName_length (l : List FileRecord) :
    ∀ seen, (dedupByName l seen).length ≤ l.length := by
  induction l with
  | nil =>
    intro seen
    simp [dedupByName]
  | cons a l ih =>
    intro seen
    rw [dedupByName]
    by_cases hc : a.name ∈ seen
    · rw [if_pos hc]
      exact le_trans (ih seen) (Nat.le_succ _)
    · rw [if_neg hc]
      simpa using Nat.succ_le_succ (ih (a.name :: seen))

theorem dedupByName_not_seen (l : List FileRecord) :
    ∀ seen x, x ∈ dedupByName l seen → x.name ∉ seen := by
  induction l with
  | nil =>
    intro seen x hx
    simp [dedupByName] at hx
  | cons a l ih =>
    intro seen x hx
    rw [dedupByName] at hx
    by_cases hc : a.name ∈ seen
    · rw [if_pos hc] at hx
      exact ih _ _ hx
    · rw [if_neg hc] at hx
      rcases List.mem_cons.mp hx with rfl | hx
      · exact hc
      · intro hmem
        exact ih _ _ hx (List.mem_cons.mpr (Or.inr hmem))

theorem dedupByName_names_pairwise (l : List FileRecord) :
    ∀ seen, (dedupByName l seen).Pairwise (fun a b => a.name ≠ b.name) := by
  induction l with
  | nil =>
    intro seen
    simp [dedupByName]
  | cons a l ih =>
    intro seen
    rw [dedupByName]
    by_cases hc : a.name ∈ seen
    · rw [if_pos hc]
      exact ih seen
    · rw [if_neg hc]
      refine List.pairwise_cons.mpr ⟨?_, ih _⟩
      intro b hb he
      have hns := dedupByName_not_seen l (a.name :: seen) b hb
      exact hns (by rw [← he]; exact List.mem_cons_self _ _)

theorem dedupByName_cons_ne_nil (x : FileRecord) (xs : List FileRecord) :
    dedupByName (x :: xs) [] ≠ [] := by
  rw [dedupByName]
  simp

/-- C1: for every nonempty input, `choose_3hourly` returns between 1 and 8
records, each of which is an element of the input, and no two returned
records share a name. (The `some` hypothesis holds exactly when the input
is nonempty.) -/
theorem choose_3hourly_bounds_mem_nodup (items : List FileRecord) (day : Int)
    (out : List FileRecord) (hout : choose_3hourly items day = some out) :
    1 ≤ out.length ∧ out.length ≤ 8 ∧ (∀ r ∈ out, r ∈ items) ∧
      out.Pairwise (fun a b => a.name ≠ b.name) := by
  match items with
  | [] => exact absurd hout (by rw [choose_3hourly]; simp)
  | h :: tl =>
    rw [choose_3hourly] at hout
    have ho : out = dedupByName ((targets3h day).map (fun t => pyMinFrom t h tl)) [] :=
      (Option.some_injective _ hout).symm
    have hlen : ((targets3h day).map (fun t => pyMinFrom t h tl)).length = 8 := rfl
    obtain ⟨y, ys, hy⟩ : ∃ y ys,
        (targets3h day).map (fun t => pyMinFrom t h tl) = y :: ys := by
      cases hm : (targets3h day).map (fun t => pyMinFrom t h tl) with
      | nil => rw [hm] at hlen; simp at hlen
      | cons y ys => exact ⟨y, ys, rfl⟩
    refine ⟨?_, ?_, ?_, ?_⟩
    · rw [ho, hy]
      exact List.length_pos.mpr (dedupByName_cons_ne_nil y ys)
    · rw [ho]
      exact le_trans (dedupByName_length _ _) (le_of_eq hlen)
    · intro r hr
      rw [ho] at hr
      have hrm := dedupByName_subset _ _ _ hr
      obtain ⟨t, _, hrt⟩ := List.mem_map.mp hrm
      rw [← hrt]
      exact pyMinFrom_mem t tl h
    · rw [ho]
      exact dedupByName_names_pairwise _ _

/-- Witness for C1 at a concrete two-record day. -/
theorem choose_3hourly_bounds_mem_nodup_witness :
    1 ≤ ([rec0, rec1] : List FileRecord).length ∧
      ([rec0, rec1] : List FileRecord).length ≤ 8 ∧
      (∀ r ∈ ([rec0, rec1] : List FileRecord), r ∈ ([rec0, rec1] : List FileRecord)) ∧
      ([rec0, rec1] : List FileRecord).Pairwise (fun a b => a.name ≠ b.name) :=
  choose_3hourly_bounds_mem_nodup [rec0, rec1] 0 [rec0, rec1] (by decide)

theorem dedupByName_replicate_aux (r : FileRecord) :
    ∀ n seen, r.name ∈ seen → dedupByName (List.replicate n r) seen = [] := by
  intro n
  induction n with
  | zero =>
    intro seen _
    simp [dedupByName]
  | succ n ih =>
    intro seen hm
    rw [List.replicate_succ, dedupByName, if_pos hm]
    exact ih seen hm

theorem dedupByName_replicate (r : FileRecord) (n : Nat) :
    dedupByName (List.replicate (n + 1) r) [] = [r] := by
  rw [List.replicate_succ, dedupByName, if_neg (by simp)]
  rw [dedupByName_replicate_aux r n _ (by simp)]

/-- C10: on a single-record input, every one of the eight targets picks the
sole record and deduplication collapses the picks, so `choose_3hourly`
returns exactly that singleton list. -/
theorem choose_3hourly_singleton (r : FileRecord) (day : Int) :
    choose_3hourly [r] day = some [r] := by
  rw [choose_3hourly]
  have hmap : (targets3h day).map (fun t => pyMinFrom t r []) = List.replicate 8 r := by
    have h1 : (targets3h day).map (fun t => pyMinFrom t r []) =
        (targets3h day).map (fun _ => r) := by
      simp [pyMinFrom]
    rw [h1]
    have h2 : (targets3h day).length = 8 := rfl
    rw [List.map_const', h2]
  rw [hmap, dedupByName_replicate r 7]

theorem base_truthy (s : String) : (JVal.str (BASE_DIR_URL ++ s)).truthy = true := by
  rw [JVal.truthy]
  simp only [Bool.not_eq_eq_eq_not, Bool.not_true, beq_eq_false_iff_ne, ne_eq]
  intro h
  have hlen := congrArg String.length h
  rw [String.length_append] at hlen
  have hb : 0 < BASE_DIR_URL.length := by decide
  have he : String.length "" = 0 := by decide
  omega

theorem mkRecord_ok_some {nm : String} {url : JVal} {r : FileRecord}
    (h : mkRecord nm url = .ok (some r)) :
    r.name = nm ∧ r.url = url ∧ (fnameSearch nm).isSome = true := by
  unfold mkRecord at h
  split at h
  · exact absurd h (by simp)
  · next d8 d6 hf =>
    split at h
    · next ts ht =>
      simp only [Except.ok.injEq, Option.some.injEq] at h
      rw [← h]
      simp [hf]
    · exact absurd h (by simp)

theorem procItem_ok_some {it : LItem} {r : FileRecord}
    (h : procItem it = .ok (some r)) :
    r.url.truthy = true ∧ (fnameSearch r.name).isSome = true := by
  cases it with
  | other => exact absurd h (by simp [procItem])
  | str s =>
    rw [procItem] at h
    obtain ⟨hn, hu, hf⟩ := mkRecord_ok_some h
    refine ⟨?_, by rwa [hn]⟩
    rw [hu]
    exact base_truthy s
  | dict fields =>
    rw [procItem] at h
    split at h
    · exact absurd h (by simp)
    · next nv hnf =>
      split at h
      · split at h
        · rename_i s htr
          obtain ⟨hn, hu, hf⟩ := mkRecord_ok_some h
          refine ⟨?_, by rwa [hn]⟩
          rw [hu]
          split
          · rename_i u huf
            by_cases hut : u.truthy
            · simp [hut]
            · simp [hut, base_truthy s]
          · exact base_truthy s
        · exact absurd h (by simp)
      · exact absurd h (by simp)

theorem parseItems_mem {its : List LItem} {rs : List FileRecord}
    (h : parseItems its = .ok rs) :
    ∀ r ∈ rs, r.url.truthy = true ∧ (fnameSearch r.name).isSome = true := by
  induction its generalizing rs with
  | nil =>
    rw [parseItems] at h
    simp only [Except.ok.injEq] at h
    subst h
    simp
  | cons it rest ih =>
    rw [parseItems] at h
    cases hp : procItem it with
    | error e =>
      rw [hp] at h
      exact absurd h (by simp)
    | ok r? =>
      rw [hp] at h
      cases hr : parseItems rest with
      | error e =>
        rw [hr] at h
        exact absurd h (by simp)
      | ok rs' =>
        rw [hr] at h
        cases r? with
        | some r =>
          simp only [Except.ok.injEq] at h
          subst h
          intro x hx
          rcases List.mem_cons.mp hx with rfl | hx
          · exact procItem_ok_some hp
          · exact ih hr x hx
        | none =>
          simp only [Except.ok.injEq] at h
          subst h
          exact ih hr

theorem filter_orderedInsert_pos (t : Int) (a : FileRecord) (l : List FileRecord)
    (ha : a.ts = t) :
    (List.orderedInsert tsR a l).filter (fun r => r.ts == t) =
      a :: l.filter (fun r => r.ts == t) := by
  induction l with
  | nil => simp [ha]
  | cons b l ih =>
    rw [List.orderedInsert]
    by_cases hab : tsR a b
    · rw [if_pos hab]
      simp [List.filter_cons, ha]
    · rw [if_neg hab]
      have hb : ¬ b.ts = t := by
        simp only [tsR] at hab
        omega
      simp [List.filter_cons, hb, ih]

theorem filter_orderedInsert_neg (t : Int) (a : FileRecord) (l : List FileRecord)
    (ha : ¬ a.ts = t) :
    (List.orderedInsert tsR a l).filter (fun r => r.ts == t) =
      l.filter (fun r => r.ts == t) := by
  induction l with
  | nil => simp [ha]
  | cons b l ih =>
    rw [List.orderedInsert]
    by_cases hab : tsR a b
    · rw [if_pos hab]
      simp [List.filter_cons, ha]
    · rw [if_neg hab]
      rw [List.filter_cons, List.filter_cons, ih]

/-- Stability of the embedding's sort: for every timestamp value, sorting
does not change the subsequence of records carrying that timestamp. -/
theorem filter_insertionSort (t : Int) (l : List FileRecord) :
    (l.insertionSort tsR).filter (fun r => r.ts == t) =
      l.filter (fun r => r.ts == t) := by
  induction l with
  | nil => rfl
  | cons a l ih =>
    rw [List.insertionSort]
    by_cases ha : a.ts = t
    · rw [filter_orderedInsert_pos t a _ ha, ih, List.filter_cons]
      simp [ha]
    · rw [filter_orderedInsert_neg t a _ ha, ih, List.filter_cons]
      simp [ha]

/-- C3: for every list payload accepted by `parse_listing`, the output is
sorted by non-decreasing timestamp, the sort is stable (for every
timestamp, the records carrying it appear in the same order as in the
pre-sort record sequence `parseItems`, which is in input order), and every
returned record's name matched `FNAME_RE`. -/
theorem parse_listing_sorted_stable (its : List LItem) (l : List FileRecord)
    (h : parse_listing (.list its) = .ok l) :
    l.Pairwise (fun a b => a.ts ≤ b.ts) ∧
      (∀ pre, parseItems its = .ok pre →
        ∀ t : Int, l.filter (fun r => r.ts == t) = pre.filter (fun r => r.ts == t)) ∧
      ∀ r ∈ l, (fnameSearch r.name).isSome = true := by
  rw [parse_listing] at h
  cases hp : parseItems its with
  | error e =>
    rw [hp] at h
    exact absurd h (by simp)
  | ok items =>
    rw [hp] at h
    simp only [Except.ok.injEq] at h
    subst h
    refine ⟨?_, ?_, ?_⟩
    · exact List.sorted_insertionSort tsR items
    · intro pre hpre t
      have hpe : pre = items := by
        simpa using hpre.symm
      subst hpe
      exact filter_insertionSort t pre
    · intro r hr
      exact (parseItems_mem hp r ((List.mem_insertionSort tsR).mp hr)).2

/-- Witness for C3 at a concrete two-element payload given in reverse
chronological order. -/
theorem parse_listing_sorted_stable_witness :
    ([recNmA, recNmB] : List FileRecord).Pairwise (fun a b => a.ts ≤ b.ts) ∧
      (∀ pre, parseItems [.str nmB, .str nmA] = .ok pre →
        ∀ t : Int, ([recNmA, recNmB] : List FileRecord).filter (fun r => r.ts == t) =
          pre.filter (fun r => r.ts == t)) ∧
      ∀ r ∈ ([recNmA, recNmB] : List FileRecord), (fnameSearch r.name).isSome = true :=
  parse_listing_sorted_stable [.str nmB, .str nmA] [recNmA, recNmB] (by decide)

/-- C9: every record built by `parse_listing` has a truthy (non-`None`,
non-empty) URL; a plain-string element's record gets the base directory URL
concatenated with the name, and so does a dict element whose `url`/`href`
fields are missing or falsy. -/
theorem parse_listing_urls (p : Payload) (l : List FileRecord)
    (h : parse_listing p = .ok l) :
    (∀ r ∈ l, r.url.truthy = true) ∧
      (∀ s r, procItem (.str s) = .ok (some r) → r.url = .str (BASE_DIR_URL ++ s)) ∧
      (∀ fields r, procItem (.dict fields) = .ok (some r) →
        truthyOpt (urlField fields) = false → r.url = .str (BASE_DIR_URL ++ r.name)) := by
  refine ⟨?_, ?_, ?_⟩
  · cases p with
    | notList => exact absurd h (by simp [parse_listing])
    | list its =>
      rw [parse_listing] at h
      cases hp : parseItems its with
      | error e =>
        rw [hp] at h
        exact absurd h (by simp)
      | ok items =>
        rw [hp] at h
        simp only [Except.ok.injEq] at h
        subst h
        intro r hr
        exact (parseItems_mem hp r ((List.mem_insertionSort tsR).mp hr)).1
  · intro s r hs
    rw [procItem] at hs
    exact (mkRecord_ok_some hs).2.1
  · intro fields r hd hu
    rw [procItem] at hd
    split at hd
    · exact absurd hd (by simp)
    · next nv hnf =>
      split at hd
      · split at hd
        · rename_i s htr
          obtain ⟨hn, hurl, _⟩ := mkRecord_ok_some hd
          rw [hn, hurl]
          split
          · rename_i u huf
            rw [huf] at hu
            have hf : u.truthy = false := by simpa [truthyOpt] using hu
            simp [hf]
          · rfl
        · exact absurd hd (by simp)
      · exact absurd hd (by simp)

/-- Witness for C9 at a concrete single-string payload. -/
theorem parse_listing_urls_witness :
    (∀ r ∈ ([recNmA] : List FileRecord), r.url.truthy = true) ∧
      (∀ s r, procItem (.str s) = .ok (some r) → r.url = .str (BASE_DIR_URL ++ s)) ∧
      (∀ fields r, procItem (.dict fields) = .ok (some r) →
        truthyOpt (urlField fields) = false → r.url = .str (BASE_DIR_URL ++ r.name)) :=
  parse_listing_urls (.list [.str nmA]) [recNmA] (by decide)

theorem fnameSearchCore_eq (cs : List Char) :
    fnameSearchCore cs =
      if 36 ≤ cs.length then
        if (cs.drop (cs.length - 36)).take 12 = fnamePat ∧
            (((cs.drop (cs.length - 36)).drop 12).take 8).all Char.isDigit = true ∧
            ((cs.drop (cs.length - 36)).drop 20).take 1 = ['T'] ∧
            (((cs.drop (cs.length - 36)).drop 21).take 6).all Char.isDigit = true ∧
            (cs.drop (cs.length - 36)).drop 27 = fnameTail then
          some ((((cs.drop (cs.length - 36)).drop 12).take 8),
            (((cs.drop (cs.length - 36)).drop 21).take 6))
        else none
      else none := rfl

/-- Characterization of the end-anchored regex search: it succeeds exactly
on strings decomposing as `<anything> glotec_icao_ <8 digits> T <6 digits>
Z.geojson`. -/
theorem fnameSearchCore_eq_some_iff (cs d8 d6 : List Char) :
    fnameSearchCore cs = some (d8, d6) ↔
      ((∃ pre, cs = pre ++ fnamePat ++ d8 ++ ['T'] ++ d6 ++ fnameTail) ∧
        d8.length = 8 ∧ d8.all Char.isDigit = true ∧
        d6.length = 6 ∧ d6.all Char.isDigit = true) := by
  rw [fnameSearchCore_eq]
  constructor
  · intro h
    split at h
    · next hlen =>
      split at h
      · next hc =>
        obtain ⟨hc1, hc2, hc3, hc4, hc5⟩ := hc
        simp only [Option.some.injEq, Prod.mk.injEq] at h
        obtain ⟨hd8, hd6⟩ := h
        set t := cs.drop (cs.length - 36) with htdef
        have ht36 : t.length = 36 := by
          rw [htdef, List.length_drop]
          omega
        have e2 : t = fnamePat ++ t.drop 12 := by
          conv_lhs => rw [← List.take_append_drop 12 t]
          rw [hc1]
        have e3 : t.drop 12 = d8 ++ t.drop 20 := by
          conv_lhs => rw [← List.take_append_drop 8 (t.drop 12)]
          rw [hd8]
          congr 1
          rw [List.drop_drop]
        have e4 : t.drop 20 = ['T'] ++ t.drop 21 := by
          conv_lhs => rw [← List.take_append_drop 1 (t.drop 20)]
          rw [hc3]
          congr 1
          rw [List.drop_drop]
        have e5 : t.drop 21 = d6 ++ t.drop 27 := by
          conv_lhs => rw [← List.take_append_drop 6 (t.drop 21)]
          rw [hd6]
          congr 1
          rw [List.drop_drop]
        have hcs : cs = cs.take (cs.length - 36) ++ t := by
          rw [htdef, List.take_append_drop]
        refine ⟨⟨cs.take (cs.length - 36), ?_⟩, ?_, ?_, ?_, ?_⟩
        · calc cs = cs.take (cs.length - 36) ++ t := hcs
            _ = cs.take (cs.length - 36) ++ fnamePat ++ d8 ++ ['T'] ++ d6 ++ fnameTail := by
              rw [e2, e3, e4, e5, hc5]
              simp [List.append_assoc]
        · rw [← hd8, List.length_take, List.length_drop, ht36]
          decide
        · exact hd8 ▸ hc2
        · rw [← hd6, List.length_take, List.length_drop, ht36]
          decide
        · exact hd6 ▸ hc4
      · exact absurd h (by simp)
    · exact absurd h (by simp)
  · rintro ⟨⟨pre, hdecomp⟩, h8, hdig8, h6, hdig6⟩
    have hpat : fnamePat.length = 12 := by decide
    have htail : fnameTail.length = 9 := by decide
    have hlen : cs.length = pre.length + 36 := by
      rw [hdecomp]
      simp only [List.length_append, hpat, htail, h8, h6, List.length_cons,
        List.length_nil]
    have hd : cs.drop (cs.length - 36) = fnamePat ++ d8 ++ ['T'] ++ d6 ++ fnameTail := by
      rw [hdecomp]
      have hl2 : (pre ++ fnamePat ++ d8 ++ ['T'] ++ d6 ++ fnameTail).length - 36 =
          pre.length := by
        rw [← hdecomp, hlen]
        omega
      rw [hl2]
      have hdl := List.drop_left pre (fnamePat ++ d8 ++ ['T'] ++ d6 ++ fnameTail)
      simp only [List.append_assoc] at hdl ⊢
      exact hdl
    set t := cs.drop (cs.length - 36) with htdef
    have h1 : t.drop 12 = d8 ++ (['T'] ++ (d6 ++ fnameTail)) := by
      rw [hd]
      have hdl2 : List.drop 12 (fnamePat ++ (d8 ++ (['T'] ++ (d6 ++ fnameTail)))) =
          d8 ++ (['T'] ++ (d6 ++ fnameTail)) := List.drop_left' hpat
      simp only [List.append_assoc] at hdl2 ⊢
      exact hdl2
    have h2 : (t.drop 12).take 8 = d8 := by
      rw [h1]
      exact List.take_left' h8
    have h3 : (t.drop 12).drop 8 = ['T'] ++ (d6 ++ fnameTail) := by
      rw [h1]
      exact List.drop_left' h8
    have h4 : t.drop 20 = ['T'] ++ (d6 ++ fnameTail) := by
      rw [← h3]
      conv_rhs => rw [List.drop_drop]
    have h5 : (t.drop 20).take 1 = ['T'] := by
      rw [h4]
      exact List.take_left' rfl
    have h6a : (t.drop 20).drop 1 = d6 ++ fnameTail := by
      rw [h4]
      exact List.drop_left' rfl
    have h7 : t.drop 21 = d6 ++ fnameTail := by
      rw [← h6a]
      conv_rhs => rw [List.drop_drop]
    have h8a : (t.drop 21).take 6 = d6 := by
      rw [h7]
      exact List.take_left' h6
    have h9 : (t.drop 21).drop 6 = fnameTail := by
      rw [h7]
      exact List.drop_left' h6
    have h10 : t.drop 27 = fnameTail := by
      rw [← h9]
      conv_rhs => rw [List.drop_drop]
    rw [if_pos (by omega)]
    rw [if_pos ⟨by rw [hd]; exact List.take_left' hpat,
      by rw [h2]; exact hdig8, h5, by rw [h8a]; exact hdig6, h10⟩]
    rw [h2, h8a]

theorem fnameSearch_eq_some_iff (s : String) (d8 d6 : List Char) :
    fnameSearch s = some (d8, d6) ↔ specGeojsonTok s d8 d6 :=
  fnameSearchCore_eq_some_iff (stripTrailingNewline s.data) d8 d6

/-- C5 counterexample: `nmJson` matches the claimed pattern
`glotec_icao_<8-digit-date>T<6-digit-time>Z.<ext>` (with extension `json`),
yet `parse_listing` produces no record for it, because `FNAME_RE` requires
the literal extension `geojson`. -/
theorem parse_anyext_counterexample :
    specMatchesAnyExt nmJson ∧ parse_listing (.list [.str nmJson]) = .ok [] := by
  constructor
  · exact ⟨[], "20240101".data, "000000".data, "json".data,
      by decide, by decide, by decide, by decide, by decide⟩
  · decide

/-- C5 (amended): for a usable name (both the plain-string and the dict
paths of `parse_listing` reach `mkRecord`), a record is produced if and
only if the name — up to one trailing newline, which the `$` anchor
tolerates — ends with `glotec_icao_<8-digit-date>T<6-digit-time>Z.geojson`,
the extension being exactly `geojson`, and the digit token denotes a valid
calendar datetime; the record then carries the name, the given URL, and the
UTC instant encoded by the token with no timezone conversion. An invalid
datetime token raises `ValueError` instead of producing a record. -/
theorem mkRecord_ok_iff (nm : String) (url : JVal) (r : FileRecord) :
    mkRecord nm url = .ok (some r) ↔
      ∃ d8 d6 ts, specGeojsonTok nm d8 d6 ∧ tsOfToken d8 d6 = some ts ∧
        r = ⟨nm, url, ts⟩ := by
  constructor
  · intro h
    unfold mkRecord at h
    split at h
    · exact absurd h (by simp)
    · next d8 d6 hf =>
      split at h
      · next ts ht =>
        simp only [Except.ok.injEq, Option.some.injEq] at h
        exact ⟨d8, d6, ts, (fnameSearch_eq_some_iff nm d8 d6).mp hf, ht, h.symm⟩
      · exact absurd h (by simp)
  · rintro ⟨d8, d6, ts, hspec, ht, hr⟩
    have hf : fnameSearch nm = some (d8, d6) := (fnameSearch_eq_some_iff nm d8 d6).mpr hspec
    unfold mkRecord
    simp only [hf, ht, hr]

theorem beq_str_symm (u v : String) : (u == v) = (v == u) := by
  rcases Decidable.em (u = v) with h | h
  · subst h
    rfl
  · have h1 : (u == v) = false := beq_eq_false_iff_ne.mpr h
    have h2 : (v == u) = false := beq_eq_false_iff_ne.mpr (Ne.symm h)
    rw [h1, h2]

theorem pruneLoop_cons_skip {cutoff : Int} {dry : Bool} {st : FsState} {e : Entry}
    {rest : List Entry} (hc : (e.isDir && daydirMatch e.name) = false) :
    pruneLoop cutoff dry st (e :: rest) = pruneLoop cutoff dry st rest := by
  rw [pruneLoop, if_neg (by simp [hc])]

theorem pruneLoop_cons_invalid {cutoff : Int} {dry : Bool} {st : FsState} {e : Entry}
    {rest : List Entry} (hc : (e.isDir && daydirMatch e.name) = true)
    (hp : parseDayName e.name = none) :
    pruneLoop cutoff dry st (e :: rest) =
      ⟨(pruneLoop cutoff dry st rest).fs, (pruneLoop cutoff dry st rest).scanned + 1,
        (pruneLoop cutoff dry st rest).removed, (pruneLoop cutoff dry st rest).msgs⟩ := by
  rw [pruneLoop, if_pos hc]
  simp only [hp]

theorem pruneLoop_cons_keep {cutoff : Int} {dry : Bool} {st : FsState} {e : Entry}
    {rest : List Entry} {d : Int} (hc : (e.isDir && daydirMatch e.name) = true)
    (hp : parseDayName e.name = some d) (hd : ¬ d < cutoff) :
    pruneLoop cutoff dry st (e :: rest) =
      ⟨(pruneLoop cutoff dry st rest).fs, (pruneLoop cutoff dry st rest).scanned + 1,
        (pruneLoop cutoff dry st rest).removed, (pruneLoop cutoff dry st rest).msgs⟩ := by
  rw [pruneLoop, if_pos hc]
  simp only [hp]
  rw [if_neg hd]

theorem pruneLoop_cons_remove_dry {cutoff : Int} {st : FsState} {e : Entry}
    {rest : List Entry} {d : Int} (hc : (e.isDir && daydirMatch e.name) = true)
    (hp : parseDayName e.name = some d) (hd : d < cutoff) :
    pruneLoop cutoff true st (e :: rest) =
      ⟨(pruneLoop cutoff true st rest).fs, (pruneLoop cutoff true st rest).scanned + 1,
        (pruneLoop cutoff true st rest).removed + 1,
        .wouldRemove e.name d cutoff :: (pruneLoop cutoff true st rest).msgs⟩ := by
  rw [pruneLoop, if_pos hc]
  simp only [hp]
  rw [if_pos hd]
  simp

theorem pruneLoop_cons_remove {cutoff : Int} {st : FsState} {e : Entry}
    {rest : List Entry} {d : Int} (hc : (e.isDir && daydirMatch e.name) = true)
    (hp : parseDayName e.name = some d) (hd : d < cutoff) :
    pruneLoop cutoff false st (e :: rest) =
      ⟨(pruneLoop cutoff false (removeDirByName st e.name) rest).fs,
        (pruneLoop cutoff false (removeDirByName st e.name) rest).scanned + 1,
        (pruneLoop cutoff false (removeDirByName st e.name) rest).removed + 1,
        .removing e.name d cutoff ::
          (pruneLoop cutoff false (removeDirByName st e.name) rest).msgs⟩ := by
  rw [pruneLoop, if_pos hc]
  simp only [hp]
  rw [if_pos hd]
  simp

theorem removeDecision_of_not_considered {cutoff : Int} {e : Entry}
    (hc : (e.isDir && daydirMatch e.name) = false) :
    removeDecision cutoff e = false := by
  simp [removeDecision, hc]

theorem removeDecision_of_invalid {cutoff : Int} {e : Entry}
    (hp : parseDayName e.name = none) :
    removeDecision cutoff e = false := by
  simp [removeDecision, hp]

theorem removeDecision_of_valid {cutoff : Int} {e : Entry} {d : Int}
    (hc : (e.isDir && daydirMatch e.name) = true)
    (hp : parseDayName e.name = some d) :
    removeDecision cutoff e = decide (d < cutoff) := by
  simp [removeDecision, hp, hc]

theorem pruneLoop_scanned (cutoff : Int) (dry : Bool) (st : FsState) (l : List Entry) :
    (pruneLoop cutoff dry st l).scanned = l.countP consideredDir := by
  induction l generalizing st with
  | nil => rfl
  | cons e rest ih =>
    rw [List.countP_cons]
    by_cases hc : (e.isDir && daydirMatch e.name) = true
    · have hcd : consideredDir e = true := hc
      cases hp : parseDayName e.name with
      | none =>
        rw [pruneLoop_cons_invalid hc hp]
        simp [ih, hcd]
      | some d =>
        by_cases hd : d < cutoff
        · cases dry with
          | true =>
            rw [pruneLoop_cons_remove_dry hc hp hd]
            simp [ih, hcd]
          | false =>
            rw [pruneLoop_cons_remove hc hp hd]
            simp [ih, hcd]
        · rw [pruneLoop_cons_keep hc hp hd]
          simp [ih, hcd]
    · have hcf : (e.isDir && daydirMatch e.name) = false := by
        simpa using hc
      have hcd : consideredDir e = false := hcf
      rw [pruneLoop_cons_skip hcf]
      simp [ih, hcd]

theorem pruneLoop_removed (cutoff : Int) (dry : Bool) (st : FsState) (l : List Entry) :
    (pruneLoop cutoff dry st l).removed = l.countP (removeDecision cutoff) := by
  induction l generalizing st with
  | nil => rfl
  | cons e rest ih =>
    rw [List.countP_cons]
    by_cases hc : (e.isDir && daydirMatch e.name) = true
    · cases hp : parseDayName e.name with
      | none =>
        rw [pruneLoop_cons_invalid hc hp]
        simp [ih, removeDecision_of_invalid hp]
      | some d =>
        by_cases hd : d < cutoff
        · cases dry with
          | true =>
            rw [pruneLoop_cons_remove_dry hc hp hd]
            simp [ih, removeDecision_of_valid hc hp, hd]
          | false =>
            rw [pruneLoop_cons_remove hc hp hd]
            simp [ih, removeDecision_of_valid hc hp, hd]
        · rw [pruneLoop_cons_keep hc hp hd]
          simp [ih, removeDecision_of_valid hc hp, hd]
    · have hcf : (e.isDir && daydirMatch e.name) = false := by
        simpa using hc
      rw [pruneLoop_cons_skip hcf]
      simp [ih, removeDecision_of_not_considered hcf]

theorem pruneLoop_dry_fs (cutoff : Int) (st : FsState) (l : List Entry) :
    (pruneLoop cutoff true st l).fs = st := by
  induction l generalizing st with
  | nil => rfl
  | cons e rest ih =>
    by_cases hc : (e.isDir && daydirMatch e.name) = true
    · cases hp : parseDayName e.name with
      | none =>
        rw [pruneLoop_cons_invalid hc hp]
        exact ih st
      | some d =>
        by_cases hd : d < cutoff
        · rw [pruneLoop_cons_remove_dry hc hp hd]
          exact ih st
        · rw [pruneLoop_cons_keep hc hp hd]
          exact ih st
    · rw [pruneLoop_cons_skip (by simpa using hc)]
      exact ih st

theorem pruneLoop_fs_children (cutoff : Int) (st : FsState) (l : List Entry) :
    (pruneLoop cutoff false st l).fs.children =
      st.children.filter
        (fun c => !(l.any (fun e => removeDecision cutoff e && e.name == c.name))) := by
  induction l generalizing st with
  | nil =>
    simp only [List.any_nil, Bool.not_false, List.filter_true]
    rfl
  | cons e rest ih =>
    by_cases hc : (e.isDir && daydirMatch e.name) = true
    · cases hp : parseDayName e.name with
      | none =>
        rw [pruneLoop_cons_invalid hc hp]
        rw [ih st]
        apply List.filter_congr
        intro c _
        simp [removeDecision_of_invalid hp]
      | some d =>
        by_cases hd : d < cutoff
        · rw [pruneLoop_cons_remove hc hp hd]
          have hdec : removeDecision cutoff e = true := by
            rw [removeDecision_of_valid hc hp]
            simpa using hd
          rw [ih (removeDirByName st e.name)]
          rw [removeDirByName]
          rw [List.filter_filter]
          apply List.filter_congr
          intro c _
          simp only [List.any_cons, hdec, Bool.true_and, Bool.not_or]
          rw [beq_str_symm e.name c.name]
          rw [Bool.and_comm]
        · rw [pruneLoop_cons_keep hc hp hd]
          rw [ih st]
          apply List.filter_congr
          intro c _
          have hdec : removeDecision cutoff e = false := by
            rw [removeDecision_of_valid hc hp]
            simpa using hd
          simp [hdec]
    · have hcf : (e.isDir && daydirMatch e.name) = false := by
        simpa using hc
      rw [pruneLoop_cons_skip hcf]
      rw [ih st]
      apply List.filter_congr
      intro c _
      simp [removeDecision_of_not_considered hcf]

theorem prune_eq_loop (st : FsState) (K todayOrd : Int) (dry : Bool) (hK : 0 < K)
    (hroot : st.rootExists = true) :
    prune_old_day_folders st K todayOrd dry =
      ⟨(pruneLoop (todayOrd - (K - 1)) dry st (childSort st.children)).fs,
        (pruneLoop (todayOrd - (K - 1)) dry st (childSort st.children)).scanned,
        (pruneLoop (todayOrd - (K - 1)) dry st (childSort st.children)).removed,
        (pruneLoop (todayOrd - (K - 1)) dry st (childSort st.children)).msgs ++
          [.summary (pruneLoop (todayOrd - (K - 1)) dry st (childSort st.children)).scanned
            (pruneLoop (todayOrd - (K - 1)) dry st (childSort st.children)).removed
            K (todayOrd - (K - 1))]⟩ := by
  unfold prune_old_day_folders
  rw [if_neg (by omega), hroot]
  rfl

theorem countP_childSort (p : Entry → Bool) (l : List Entry) :
    (childSort l).countP p = l.countP p :=
  (List.perm_insertionSort nameR l).countP_eq p

theorem mem_childSort {e : Entry} {l : List Entry} : e ∈ childSort l ↔ e ∈ l :=
  (List.perm_insertionSort nameR l).mem_iff

theorem parseDayName_daydirMatch {s : String} {d : Int}
    (h : parseDayName s = some d) : daydirMatch s = true := by
  unfold parseDayName at h
  split at h
  · next c1 c2 c3 c4 c5 c6 c7 c8 heq =>
    split at h
    · next hdig =>
      rw [daydirMatch, heq]
      simp only [isDigits8, hdig]
      simp
    · exact absurd h (by simp)
  · exact absurd h (by simp)

/-- C4: with a positive retention window and an existing root, a child
directory whose 8-digit name parses as a valid calendar date is gone after
a real (non-dry) prune run if and only if its date is strictly before the
cutoff `today - (keep_days - 1)`; equivalently, every such directory that
remains is at or after the cutoff. (Filesystem names are unique, whence the
`Nodup` hypothesis.) -/
theorem prune_removes_iff_old (st : FsState) (K todayOrd : Int) (e : Entry) (d : Int)
    (hK : 0 < K) (hroot : st.rootExists = true)
    (hnodup : (st.children.map Entry.name).Nodup)
    (he : e ∈ st.children) (hdir : e.isDir = true)
    (hd : parseDayName e.name = some d) :
    (e ∉ (prune_old_day_folders st K todayOrd false).fs.children ↔
      d < todayOrd - (K - 1)) := by
  rw [prune_eq_loop st K todayOrd false hK hroot]
  show e ∉ (pruneLoop (todayOrd - (K - 1)) false st (childSort st.children)).fs.children ↔ _
  rw [pruneLoop_fs_children]
  have hdm : daydirMatch e.name = true := parseDayName_daydirMatch hd
  have hcc : (e.isDir && daydirMatch e.name) = true := by
    simp [hdir, hdm]
  have hdec : removeDecision (todayOrd - (K - 1)) e = decide (d < todayOrd - (K - 1)) :=
    removeDecision_of_valid hcc hd
  constructor
  · intro hnot
    by_contra hged
    apply hnot
    rw [List.mem_filter]
    refine ⟨he, ?_⟩
    rw [Bool.not_eq_eq_eq_not, Bool.not_true, List.any_eq_false]
    intro e' he' hpe
    have he'm : e' ∈ st.children := mem_childSort.mp he'
    simp only [Bool.and_eq_true, beq_iff_eq] at hpe
    obtain ⟨hdece, hname⟩ := hpe
    have hee : e' = e := List.inj_on_of_nodup_map hnodup he'm he hname
    subst hee
    rw [hdec] at hdece
    exact hged (by simpa using hdece)
  · intro hlt hmem2
    rw [List.mem_filter] at hmem2
    obtain ⟨-, hpred⟩ := hmem2
    rw [Bool.not_eq_eq_eq_not, Bool.not_true, List.any_eq_false] at hpred
    have hes : e ∈ childSort st.children := mem_childSort.mpr he
    apply hpred e hes
    simp [hdec, hlt]

/-- Witness for C4: with `keep_days = 5` and today = 2024-02-01 (ordinal
738917), the directory `20240101` (ordinal 738886, before the cutoff
2024-01-28 = 738913) is removed. -/
theorem prune_removes_iff_old_witness :
    (⟨"20240101", true⟩ : Entry) ∉
      (prune_old_day_folders ⟨true, [⟨"20240101", true⟩, ⟨"20240131", true⟩]⟩
        5 738917 false).fs.children :=
  (prune_removes_iff_old ⟨true, [⟨"20240101", true⟩, ⟨"20240131", true⟩]⟩ 5 738917
    ⟨"20240101", true⟩ 738886 (by decide) (by decide) (by decide) (by decide)
    (by decide) (by decide)).mpr (by decide)

theorem prune_fs_eq (st : FsState) (K todayOrd : Int) (dry : Bool) (hK : 0 < K)
    (hroot : st.rootExists = true) :
    (prune_old_day_folders st K todayOrd dry).fs =
      (pruneLoop (todayOrd - (K - 1)) dry st (childSort st.children)).fs := by
  rw [prune_eq_loop st K todayOrd dry hK hroot]

theorem prune_scanned_eq (st : FsState) (K todayOrd : Int) (dry : Bool) (hK : 0 < K)
    (hroot : st.rootExists = true) :
    (prune_old_day_folders st K todayOrd dry).scanned =
      (pruneLoop (todayOrd - (K - 1)) dry st (childSort st.children)).scanned := by
  rw [prune_eq_loop st K todayOrd dry hK hroot]

theorem prune_removed_eq (st : FsState) (K todayOrd : Int) (dry : Bool) (hK : 0 < K)
    (hroot : st.rootExists = true) :
    (prune_old_day_folders st K todayOrd dry).removed =
      (pruneLoop (todayOrd - (K - 1)) dry st (childSort st.children)).removed := by
  rw [prune_eq_loop st K todayOrd dry hK hroot]

theorem prune_msgs_eq (st : FsState) (K todayOrd : Int) (dry : Bool) (hK : 0 < K)
    (hroot : st.rootExists = true) :
    (prune_old_day_folders st K todayOrd dry).msgs =
      (pruneLoop (todayOrd - (K - 1)) dry st (childSort st.children)).msgs ++
        [.summary (pruneLoop (todayOrd - (K - 1)) dry st (childSort st.children)).scanned
          (pruneLoop (todayOrd - (K - 1)) dry st (childSort st.children)).removed
          K (todayOrd - (K - 1))] := by
  rw [prune_eq_loop st K todayOrd dry hK hroot]

/-- C6 counterexample: a directory named `20240230` (Feb 30: invalid
day-of-month) is skipped without error and not removed, but — contrary to
the claim — it IS counted: the run reports `scanned = 1`, not `0`, because
`scanned += 1` precedes the `strptime` call in the source. -/
theorem prune_invalid_counted_counterexample :
    prune_old_day_folders ⟨true, [⟨"20240230", true⟩]⟩ 5 739000 false =
      ⟨⟨true, [⟨"20240230", true⟩]⟩, 1, 0, [.summary 1 0 5 738996]⟩ := by
  decide

/-- C6 (amended): during prune with a positive keep window and an existing
root, a child directory whose name matches the 8-digit pattern but fails to
parse as a valid calendar date is skipped without error and not removed,
but it IS counted in the scanned count, which counts every directory whose
name matches the pattern whether or not the date is valid. -/
theorem prune_invalid_name_skipped (st : FsState) (K todayOrd : Int) (e : Entry)
    (hK : 0 < K) (hroot : st.rootExists = true)
    (hnodup : (st.children.map Entry.name).Nodup)
    (he : e ∈ st.children) (hdir : e.isDir = true)
    (hdm : daydirMatch e.name = true) (hp : parseDayName e.name = none) :
    e ∈ (prune_old_day_folders st K todayOrd false).fs.children ∧
      (prune_old_day_folders st K todayOrd false).scanned =
        st.children.countP consideredDir := by
  constructor
  · rw [prune_fs_eq st K todayOrd false hK hroot, pruneLoop_fs_children]
    rw [List.mem_filter]
    refine ⟨he, ?_⟩
    rw [Bool.not_eq_eq_eq_not, Bool.not_true, List.any_eq_false]
    intro e' he' hpe
    simp only [Bool.and_eq_true, beq_iff_eq] at hpe
    obtain ⟨hdece, hname⟩ := hpe
    have he'm : e' ∈ st.children := mem_childSort.mp he'
    have hee : e' = e := List.inj_on_of_nodup_map hnodup he'm he hname
    subst hee
    rw [removeDecision_of_invalid hp] at hdece
    exact Bool.false_ne_true hdece
  · rw [prune_scanned_eq st K todayOrd false hK hroot, pruneLoop_scanned,
      countP_childSort]

/-- Witness for C6 (amended) at the concrete invalid name `20240230`. -/
theorem prune_invalid_name_skipped_witness :
    (⟨"20240230", true⟩ : Entry) ∈
      (prune_old_day_folders ⟨true, [⟨"20240230", true⟩]⟩ 5 739000 false).fs.children ∧
      (prune_old_day_folders ⟨true, [⟨"20240230", true⟩]⟩ 5 739000 false).scanned =
        ([⟨"20240230", true⟩] : List Entry).countP consideredDir :=
  prune_invalid_name_skipped ⟨true, [⟨"20240230", true⟩]⟩ 5 739000 ⟨"20240230", true⟩
    (by decide) (by decide) (by decide) (by decide) (by decide) (by decide) (by decide)

/-- C7 counterexample: with `keep_days = 0` the pruner emits only the skip
notice, and with a missing root it emits nothing — in neither case is a
summary with counts, keep_days and cutoff emitted, contrary to the claim
that every invocation emits it. -/
theorem prune_no_summary_counterexample :
    prune_old_day_folders ⟨true, []⟩ 0 0 false = ⟨⟨true, []⟩, 0, 0, [.skipDisabled]⟩ ∧
      prune_old_day_folders ⟨false, [⟨"19000101", true⟩]⟩ 5 739000 false =
        ⟨⟨false, [⟨"19000101", true⟩]⟩, 0, 0, []⟩ := by
  constructor
  · decide
  · decide

/-- C7 (amended): the summary line carrying the scanned and removed counts,
the effective keep_days and the cutoff `today - (keep_days - 1)` is emitted
(as the final message) only when keep_days is positive and the root exists;
its counts equal the returned counters, which count the pattern-matching
directories and those strictly before the cutoff respectively. With
`keep_days <= 0` the pruner removes nothing, returns zero counts and prints
only a skip notice; with a nonexistent root it removes nothing, returns
zero counts and prints nothing. -/
theorem prune_summary_spec (st : FsState) (K todayOrd : Int) (dry : Bool) :
    (0 < K → st.rootExists = true →
      (prune_old_day_folders st K todayOrd dry).msgs.getLast? =
        some (.summary (st.children.countP consideredDir)
          (st.children.countP (removeDecision (todayOrd - (K - 1)))) K
          (todayOrd - (K - 1))) ∧
      (prune_old_day_folders st K todayOrd dry).scanned =
        st.children.countP consideredDir ∧
      (prune_old_day_folders st K todayOrd dry).removed =
        st.children.countP (removeDecision (todayOrd - (K - 1)))) ∧
    (K ≤ 0 → prune_old_day_folders st K todayOrd dry = ⟨st, 0, 0, [.skipDisabled]⟩) ∧
    (st.rootExists = false → 0 < K →
      prune_old_day_folders st K todayOrd dry = ⟨st, 0, 0, []⟩) := by
  refine ⟨?_, ?_, ?_⟩
  · intro hK hroot
    refine ⟨?_, ?_, ?_⟩
    · rw [prune_msgs_eq st K todayOrd dry hK hroot, List.getLast?_concat,
        pruneLoop_scanned, pruneLoop_removed, countP_childSort, countP_childSort]
    · rw [prune_scanned_eq st K todayOrd dry hK hroot, pruneLoop_scanned,
        countP_childSort]
    · rw [prune_removed_eq st K todayOrd dry hK hroot, pruneLoop_removed,
        countP_childSort]
  · intro hK0
    unfold prune_old_day_folders
    rw [if_pos hK0]
  · intro hroot hK
    unfold prune_old_day_folders
    rw [if_neg (by omega), hroot]
    rfl

/-- C8: a dry run leaves the filesystem exactly as it was, while its
scanned and removed counters equal those that the real run on the same
state reports. -/
theorem prune_dry_run_frame (st : FsState) (K todayOrd : Int) :
    (prune_old_day_folders st K todayOrd true).fs = st ∧
      (prune_old_day_folders st K todayOrd true).scanned =
        (prune_old_day_folders st K todayOrd false).scanned ∧
      (prune_old_day_folders st K todayOrd true).removed =
        (prune_old_day_folders st K todayOrd false).removed := by
  by_cases hK : 0 < K
  · by_cases hroot : st.rootExists = true
    · refine ⟨?_, ?_, ?_⟩
      · rw [prune_fs_eq st K todayOrd true hK hroot]
        exact pruneLoop_dry_fs _ _ _
      · rw [prune_scanned_eq st K todayOrd true hK hroot,
          prune_scanned_eq st K todayOrd false hK hroot,
          pruneLoop_scanned, pruneLoop_scanned]
      · rw [prune_removed_eq st K todayOrd true hK hroot,
          prune_removed_eq st K todayOrd false hK hroot,
          pruneLoop_removed, pruneLoop_removed]
    · have hrf : st.rootExists = false := by simpa using hroot
      have hKn : ¬ K ≤ 0 := by omega
      unfold prune_old_day_folders
      rw [if_neg hKn, if_neg hKn, hrf]
      exact ⟨rfl, rfl, rfl⟩
  · have hK0 : K ≤ 0 := by omega
    unfold prune_old_day_folders
    rw [if_pos hK0, if_pos hK0]
    exact ⟨rfl, rfl, rfl⟩

end Glotec
